import Mathlib

/-!
Verification development for the RAG-Based Product Chatbot repository:
a shallow embedding of the hybrid retrieval engine (chunker, vector and
lexical indices, fusion ranker, ingestion pipeline) and of the frontend
chat page's `handleAsk` handler, together with theorems settling the
specification's claims about them.

The backend retrieval engine itself ships outside the provided sources
(only the frontend, deployment scripts and README are present), so the
engine components are modelled from the spec, as marked on each
definition.  The frontend definitions are translated from
`frontend/src/pages/Chat.jsx` (the authenticated chat page).
-/

namespace RAG

/-- Scores are modelled as rationals. -/
abbrev Score := ℚ

/-! ### Generic descending-by-score, ascending-by-key ranking order -/

/-- `rankLE s k a b` holds when `a` ranks at or before `b`: strictly higher
score first, ties broken by ascending key. -/
def rankLE {α : Type} (s : α → Score) (k : α → Nat) (a b : α) : Prop :=
  s b < s a ∨ (s a = s b ∧ k a ≤ k b)

instance rankLE.decRel {α : Type} (s : α → Score) (k : α → Nat) :
    DecidableRel (rankLE s k) := fun a b => by
  unfold rankLE; infer_instance

instance rankLE.isTotal {α : Type} (s : α → Score) (k : α → Nat) :
    IsTotal α (rankLE s k) := by
  constructor
  intro a b
  rcases lt_trichotomy (s a) (s b) with h | h | h
  · exact Or.inr (Or.inl h)
  · rcases Nat.le_total (k a) (k b) with hk | hk
    · exact Or.inl (Or.inr ⟨h, hk⟩)
    · exact Or.inr (Or.inr ⟨h.symm, hk⟩)
  · exact Or.inl (Or.inl h)

instance rankLE.isTrans {α : Type} (s : α → Score) (k : α → Nat) :
    IsTrans α (rankLE s k) := by
  constructor
  intro a b c hab hbc
  rcases hab with hab | ⟨hab, hk⟩
  · rcases hbc with hbc | ⟨hbc, _⟩
    · exact Or.inl (hbc.trans hab)
    · exact Or.inl (hbc ▸ hab)
  · rcases hbc with hbc | ⟨hbc, hk2⟩
    · exact Or.inl (hbc.trans_eq hab.symm)
    · exact Or.inr ⟨hab.trans hbc, hk.trans hk2⟩

/-- Rank a list: sort by descending score with ascending-key tie-break. -/
def rankSort {α : Type} (s : α → Score) (k : α → Nat) (l : List α) : List α :=
  List.insertionSort (rankLE s k) l

/-! ### Chunker

Modelled from the spec: the Chunker splits a token sequence into
chunks of a target size `C` overlapping the previous chunk by `O`
tokens; a text shorter than one chunk yields exactly one chunk, and a
trailing remainder shorter than the overlap is merged into the previous
chunk rather than emitted as its own chunk.  Pure function of the token
list and the configuration `(C, O)`. -/
def chunkTokens (C O : Nat) (toks : List String) : List (List String) :=
  if _h : toks.length ≤ C ∨ toks.length < C + O ∨ ¬ O < C then
    [toks]
  else
    toks.take C :: chunkTokens C O (toks.drop (C - O))
termination_by toks.length
decreasing_by
  simp only [List.length_drop]
  omega

/-- Undo the overlaps: keep the first chunk whole and drop the first `O`
(overlap) tokens of every later chunk, then concatenate. -/
def joinChunks (O : Nat) : List (List String) → List String
  | [] => []
  | c :: cs => c ++ (cs.map (List.drop O)).flatten

theorem chunkTokens_ne_nil (C O : Nat) (toks : List String) :
    chunkTokens C O toks ≠ [] := by
  rw [chunkTokens]
  split <;> simp

/-- Auxiliary reconstruction: dropping `O` tokens from every chunk
(including the first) and concatenating yields the input minus its first
`O` tokens. -/
theorem chunkTokens_drop_flatten (C O : Nat) :
    ∀ (n : Nat) (toks : List String), toks.length ≤ n →
      toks.take O ++ ((chunkTokens C O toks).map (List.drop O)).flatten = toks := by
  intro n
  induction n with
  | zero =>
    intro toks hn
    have : toks = [] := List.eq_nil_of_length_eq_zero (Nat.le_zero.mp hn)
    subst this
    rw [chunkTokens]
    split
    · simp
    · rename_i hguard
      push_neg at hguard
      omega
  | succ n ih =>
    intro toks hn
    rw [chunkTokens]
    split
    · simp [List.take_append_drop]
    · rename_i hguard
      push_neg at hguard
      obtain ⟨h1, h2, h3⟩ := hguard
      have hrec := ih (toks.drop (C - O))
        (by simp only [List.length_drop]; omega)
      -- from hrec, the flattened tail equals the input past position C
      have htail : ((chunkTokens C O (toks.drop (C - O))).map (List.drop O)).flatten
          = toks.drop C := by
        have hsplit : (toks.drop (C - O)).take O ++ (toks.drop (C - O)).drop O
            = toks.drop (C - O) := List.take_append_drop _ _
        have hcancel := List.append_cancel_left (hrec.trans hsplit.symm)
        rw [hcancel, List.drop_drop]
        congr 1
        omega
      simp only [List.map_cons, List.flatten_cons, htail]
      rw [← List.append_assoc]
      have htake : toks.take O = (toks.take C).take O := by
        rw [List.take_take]
        congr 1
        omega
      rw [htake, List.take_append_drop, List.take_append_drop]

/-- Chunking round-trip: concatenating the chunks minus overlaps
reconstructs the input token list. -/
theorem joinChunks_chunkTokens (C O : Nat) (toks : List String) :
    joinChunks O (chunkTokens C O toks) = toks := by
  rw [chunkTokens]
  split
  · simp [joinChunks]
  · rename_i hguard
    push_neg at hguard
    obtain ⟨h1, h2, h3⟩ := hguard
    have htail := chunkTokens_drop_flatten C O (toks.drop (C - O)).length
      (toks.drop (C - O)) le_rfl
    have hsplit : (toks.drop (C - O)).take O ++ (toks.drop (C - O)).drop O
        = toks.drop (C - O) := List.take_append_drop _ _
    have hcancel := List.append_cancel_left (htail.trans hsplit.symm)
    simp only [joinChunks, hcancel, List.drop_drop]
    have hCO : C - O + O = C := by omega
    have hOC : O + (C - O) = C := by omega
    rw [hCO, List.take_append_drop]

/-! ### Vector and lexical indices

Modelled from the spec: both indices store per-chunk entries carrying a
machine tag (or none for globally visible content) and answer top-`k`
queries under an optional machine filter; filtering happens over the
whole index before ranking, never as a post-filter. -/

/-- An entry of the Vector Index. -/
structure VEntry where
  chunk_id : Nat
  vec : List Score
  tag : Option String
deriving DecidableEq, Repr

/-- An entry of the Lexical Index. -/
structure LEntry where
  chunk_id : Nat
  tokens : List String
  tag : Option String
deriving DecidableEq, Repr

/-- Machine scoping: with no filter every entry is eligible; with filter
`some m` only entries tagged `m` or untagged (global) are eligible. -/
def eligible (filter : Option String) (tag : Option String) : Bool :=
  match filter with
  | none => true
  | some m => tag = none || tag = some m

/-- Dot product of two score vectors. -/
def dot (v w : List Score) : Score := (List.zipWith (· * ·) v w).sum

/-- Modelled from the spec: cosine similarity of unit-normalized vectors,
mapped from `[-1, 1]` to `[0, 1]` by `(score + 1) / 2`. -/
def cosineSim (v w : List Score) : Score := (dot v w + 1) / 2

/-- Modelled from the spec: the Vector Index query — rank eligible entries
by similarity to the query vector and return the top `k`. -/
def vQuery (idx : List VEntry) (q : List Score) (k : Nat) (f : Option String) :
    List (Nat × Score) :=
  (rankSort Prod.snd Prod.fst
    ((idx.filter (fun e => eligible f e.tag)).map
      (fun e => (e.chunk_id, cosineSim e.vec q)))).take k

/-- BM25 `k1` parameter (fixed configuration constant). -/
def bm25_k1 : Score := 3 / 2

/-- BM25 `b` parameter (fixed configuration constant). -/
def bm25_b : Score := 3 / 4

/-- Number of lexical-index documents containing a token. -/
def docFreq (idx : List LEntry) (tok : String) : Nat :=
  (idx.filter (fun e => 0 < e.tokens.count tok)).length

/-- Corpus-wide average document length, recomputed over the current
index contents so that it stays consistent under incremental insertion. -/
def avgLen (idx : List LEntry) : Score :=
  (idx.map (fun e => (e.tokens.length : Score))).sum / idx.length

/-- Modelled from the spec: a BM25-style inverse document frequency.  The
classical formula takes a logarithm of this ratio; the logarithm is
omitted here to stay in `ℚ` (a monotone change that does not affect the
properties claimed of the engine). -/
def idfQ (idx : List LEntry) (tok : String) : Score :=
  ((idx.length : Score) - docFreq idx tok + 1 / 2) / (docFreq idx tok + 1 / 2)

/-- Modelled from the spec: BM25-style score of one document against a
tokenized query, with term frequency saturation `k1` and length
normalization `b` over the corpus average length. -/
def bm25Score (idx : List LEntry) (q : List String) (e : LEntry) : Score :=
  (q.map (fun t =>
    let tf : Score := e.tokens.count t
    idfQ idx t * (tf * (bm25_k1 + 1))
      / (tf + bm25_k1 * (1 - bm25_b + bm25_b * e.tokens.length / avgLen idx)))).sum

/-- Modelled from the spec: the Lexical Index query — rank eligible
entries by BM25-style score and return the top `k`. -/
def lQuery (idx : List LEntry) (q : List String) (k : Nat) (f : Option String) :
    List (Nat × Score) :=
  (rankSort Prod.snd Prod.fst
    ((idx.filter (fun e => eligible f e.tag)).map
      (fun e => (e.chunk_id, bm25Score idx q e)))).take k

/-! ### Per-query min-max score normalization -/

/-- Modelled from the spec: raw lexical scores are normalized to `[0, 1]`
per query by min-max scaling over the candidate set returned for that
query; a degenerate candidate set (all scores equal, in particular a
single candidate) normalizes to `1`. -/
def minMaxNormalize (res : List (Nat × Score)) : List (Nat × Score) :=
  match res with
  | [] => []
  | p :: ps =>
    let lo := (ps.map Prod.snd).foldr min p.2
    let hi := (ps.map Prod.snd).foldr max p.2
    if hi = lo then (p :: ps).map (fun q => (q.1, 1))
    else (p :: ps).map (fun q => (q.1, (q.2 - lo) / (hi - lo)))

theorem foldr_min_le_init (l : List Score) (d : Score) : l.foldr min d ≤ d := by
  induction l with
  | nil => exact le_rfl
  | cons a l ih => exact le_trans (min_le_right _ _) ih

theorem foldr_min_le_mem (l : List Score) (d : Score) (x : Score) (hx : x ∈ l) :
    l.foldr min d ≤ x := by
  induction l with
  | nil => cases hx
  | cons a l ih =>
    rcases List.mem_cons.mp hx with h | h
    · exact h ▸ min_le_left _ _
    · exact le_trans (min_le_right _ _) (ih h)

theorem le_foldr_max_init (l : List Score) (d : Score) : d ≤ l.foldr max d := by
  induction l with
  | nil => exact le_rfl
  | cons a l ih => exact le_trans ih (le_max_right _ _)

theorem le_foldr_max_mem (l : List Score) (d : Score) (x : Score) (hx : x ∈ l) :
    x ≤ l.foldr max d := by
  induction l with
  | nil => cases hx
  | cons a l ih =>
    rcases List.mem_cons.mp hx with h | h
    · exact h ▸ le_max_left _ _
    · exact le_trans (ih h) (le_max_right _ _)

/-! ### Fusion ranker -/

/-- Fixed vector-side fusion weight. -/
def w_v : Score := 6 / 10

/-- Fixed lexical-side fusion weight. -/
def w_l : Score := 4 / 10

/-- A transient query-time result record. -/
structure Candidate where
  chunk_id : Nat
  vector_score : Score
  lexical_score : Score
  fused_score : Score
deriving DecidableEq, Repr

/-- Score of a chunk id in one side's result list, `0` when the chunk was
not retrieved on that side. -/
def lookupScore (res : List (Nat × Score)) (id : Nat) : Score :=
  match res.find? (fun p => p.1 == id) with
  | some p => p.2
  | none => 0

/-- Modelled from the spec: build one candidate per chunk id retrieved by
either side, fusing the two normalized scores with the fixed weights; a
chunk missing from one side contributes `0` on that side. -/
def fusedCandidates (vres lres : List (Nat × Score)) : List Candidate :=
  ((vres.map Prod.fst ++ lres.map Prod.fst).dedup).map (fun id =>
    { chunk_id := id
      vector_score := lookupScore vres id
      lexical_score := lookupScore lres id
      fused_score := w_v * lookupScore vres id + w_l * lookupScore lres id })

/-- Modelled from the spec: the Fusion Ranker — fuse the two sides' result
lists, sort by fused score descending with ties broken by chunk id
ascending, and truncate to the top `kfinal`. -/
def fuseRank (vres lres : List (Nat × Score)) (kfinal : Nat) : List Candidate :=
  (rankSort Candidate.fused_score Candidate.chunk_id
    (fusedCandidates vres lres)).take kfinal

/-! ### Chunk store, provenance and the Retrieval Service query -/

/-- Source kind of a document. -/
inductive SourceKind where
  | manual : SourceKind
  | note : SourceKind
deriving DecidableEq, Repr

/-- A persisted chunk record, carrying its citation metadata. -/
structure ChunkRec where
  chunk_id : Nat
  doc_id : Nat
  ordinal : Nat
  text : List String
  title : String
  tag : Option String
  page : Option Nat
  note_id : Option Nat
  created_at : Option String
deriving DecidableEq, Repr

/-- Citation metadata attached to a retrieved chunk. -/
structure Provenance where
  source_type : String
  manual_title : String
  page_number : Option Nat
  note_id : Option Nat
  created_at : Option String
deriving DecidableEq, Repr

/-- The provenance carried by a chunk record: manual title plus page for
manual chunks, note id plus creation timestamp for note chunks. -/
def chunkProv (c : ChunkRec) : Provenance :=
  { source_type := if c.note_id.isSome then "note" else "manual"
    manual_title := c.title
    page_number := c.page
    note_id := c.note_id
    created_at := c.created_at }

/-- The engine state: both indices plus the chunk store. -/
structure Store where
  vindex : List VEntry
  lindex : List LEntry
  chunks : List ChunkRec
deriving DecidableEq, Repr

/-- The empty engine state. -/
def Store.empty : Store := ⟨[], [], []⟩

/-- Accumulating whitespace splitter over a character list. -/
def tokenizeAux : List Char → List Char → List String
  | [], acc => if acc = [] then [] else [⟨acc.reverse⟩]
  | c :: cs, acc =>
    if c = ' ' then
      if acc = [] then tokenizeAux cs []
      else (⟨acc.reverse⟩ : String) :: tokenizeAux cs []
    else tokenizeAux cs (c :: acc)

/-- Modelled from the spec: whitespace tokenization of query text. -/
def tokenize (s : String) : List String := tokenizeAux s.data []

/-- Default retrieval depth per side before fusion. -/
def K_retrieve : Nat := 20

/-- Lexical-only candidates for the degraded (embedding unavailable)
query path: single-source ranking by the normalized lexical score. -/
def lexOnlyCandidates (lres : List (Nat × Score)) : List Candidate :=
  lres.map (fun p =>
    { chunk_id := p.1, vector_score := 0, lexical_score := p.2, fused_score := p.2 })

/-- Rank lexical-only candidates and truncate to `k`. -/
def lexOnlyRank (lres : List (Nat × Score)) (k : Nat) : List Candidate :=
  (rankSort Candidate.fused_score Candidate.chunk_id (lexOnlyCandidates lres)).take k

/-- Modelled from the spec: `Query(query_text, machine_tag_or_none, top_k)`.
Runs both indices under the same machine filter, normalizes the lexical
side per query, fuses, and truncates; when the query embedding cannot be
computed it falls back to lexical-only ranking instead of erroring, and
an empty index yields an empty list rather than an error. -/
def ragQuery (embed : String → Option (List Score)) (st : Store) (q : String)
    (m : Option String) (k : Nat) : List Candidate :=
  let lres := minMaxNormalize (lQuery st.lindex (tokenize q) K_retrieve m)
  match embed q with
  | some qv => fuseRank (vQuery st.vindex qv K_retrieve m) lres k
  | none => lexOnlyRank lres k

/-- A retrieved candidate together with its carried provenance. -/
structure Retrieved where
  cand : Candidate
  prov : Provenance
deriving DecidableEq, Repr

/-- Placeholder provenance for an id absent from the chunk store. -/
def defaultProv : Provenance := ⟨"manual", "", none, none, none⟩

/-- Provenance of a chunk id, looked up in the chunk store. -/
def provOf (chunks : List ChunkRec) (id : Nat) : Provenance :=
  match chunks.find? (fun c => c.chunk_id == id) with
  | some c => chunkProv c
  | none => defaultProv

/-- Modelled from the spec: the query result as handed to callers — each
candidate carries its source chunk provenance so the caller can build
citations without a second lookup. -/
def ragQueryProv (embed : String → Option (List Score)) (st : Store) (q : String)
    (m : Option String) (k : Nat) : List Retrieved :=
  (ragQuery embed st q m k).map (fun c => ⟨c, provOf st.chunks c.chunk_id⟩)

/-! ### Ingestion pipeline -/

/-- Replace-or-append insertion keyed by a `Nat` key: re-insertion for an
existing key replaces the stored entry, otherwise the entry is appended. -/
def upsertBy {α : Type} (key : α → Nat) (idx : List α) (e : α) : List α :=
  if idx.any (fun x => key x == key e) then
    idx.map (fun x => if key x == key e then e else x)
  else idx ++ [e]

/-- `e` is stored in `idx` and is the only entry with its key. -/
def StoredAs {α : Type} (key : α → Nat) (idx : List α) (e : α) : Prop :=
  e ∈ idx ∧ ∀ x ∈ idx, key x = key e → x = e

/-- Modelled from the spec: `insert(chunk_id, vector, machine_tag)` on the
Vector Index — idempotent for the same chunk id (re-insertion replaces). -/
def vInsert (idx : List VEntry) (e : VEntry) : List VEntry :=
  upsertBy VEntry.chunk_id idx e

/-- Modelled from the spec: `insert(chunk_id, tokens, machine_tag)` on the
Lexical Index — same replace-on-re-insertion contract. -/
def lInsert (idx : List LEntry) (e : LEntry) : List LEntry :=
  upsertBy LEntry.chunk_id idx e

/-- Replace-or-append insertion into the chunk store. -/
def cInsert (chunks : List ChunkRec) (c : ChunkRec) : List ChunkRec :=
  upsertBy ChunkRec.chunk_id chunks c

/-- Ingestion error taxonomy. -/
inductive IngestErr where
  | ingestionFailed (reason : String) : IngestErr
deriving DecidableEq, Repr

/-- A document handed to the ingestion pipeline. -/
structure DocInput where
  doc_id : Nat
  text : List String
  title : String
  tag : Option String
  kind : SourceKind
  created_at : String
deriving DecidableEq, Repr

/-- The chunk record for ordinal `i` of a document. -/
def mkChunkRec (d : DocInput) (i : Nat) (ctext : List String) : ChunkRec :=
  { chunk_id := Nat.pair d.doc_id i
    doc_id := d.doc_id
    ordinal := i
    text := ctext
    title := d.title
    tag := d.tag
    page := match d.kind with | .manual => some (i + 1) | .note => none
    note_id := match d.kind with | .manual => none | .note => some d.doc_id
    created_at := match d.kind with | .manual => none | .note => some d.created_at }

/-- Embed every chunk, failing as a whole if any single embedding fails. -/
def embedAll (embed : List String → Option (List Score)) :
    List (List String) → Option (List (List Score))
  | [] => some []
  | c :: cs =>
    match embed c, embedAll embed cs with
    | some v, some vs => some (v :: vs)
    | _, _ => none

/-- Modelled from the spec: `ingest_document` — chunk the text, embed
every chunk, and only if every step succeeded commit all chunks into the
vector index, the lexical index and the chunk store; on any failure no
partial state is committed and the state is returned unchanged. -/
def ingest_document (embed : List String → Option (List Score)) (C O : Nat)
    (st : Store) (d : DocInput) : Store × Option IngestErr :=
  let pieces := chunkTokens C O d.text
  match embedAll embed pieces with
  | none => (st, some (.ingestionFailed "EmbeddingUnavailable"))
  | some vecs =>
    let recs := pieces.enum.map (fun pi => mkChunkRec d pi.1 pi.2)
    let ventries := (recs.zip vecs).map (fun rv => VEntry.mk rv.1.chunk_id rv.2 d.tag)
    let lentries := recs.map (fun r => LEntry.mk r.chunk_id r.text d.tag)
    ({ vindex := ventries.foldl vInsert st.vindex
       lindex := lentries.foldl lInsert st.lindex
       chunks := recs.foldl cInsert st.chunks }, none)

/-! ### Frontend chat page (`handleAsk` in Chat.jsx) -/

/-- A machine listed by the backend. -/
structure Machine where
  id : Nat
  name : String
deriving DecidableEq, Repr

/-- A chat message in the page state; `type` is `some "typing"` for the
typing placeholder and `none` for ordinary messages. -/
structure Msg where
  sender : String
  text : String
  type : Option String
deriving DecidableEq, Repr

/-- One entry of the `sources` array of a chat response. -/
structure SourceItem where
  source_type : String
  manual_title : String
  page_number : Option Nat
  note_id : Option Nat
  created_at : Option String
deriving DecidableEq, Repr

/-- The body of the POST to `/api/chat/`. -/
structure ChatRequest where
  query : String
  machine_id : Nat
deriving DecidableEq, Repr

/-- The typing placeholder message. -/
def typingMsg : Msg := { sender := "bot", text := "...", type := some "typing" }

/-- The user message appended for the submitted input. -/
def userMsg (t : String) : Msg := { sender := "user", text := t, type := none }

/-- An ordinary bot message. -/
def botMsg (t : String) : Msg := { sender := "bot", text := t, type := none }

/-- The fixed apology message appended on a non-401 request failure. -/
def apologyMsg : Msg :=
  botMsg "Sorry, I couldn\x27t process that request. Please try again."

/-- JavaScript `v || d` on an optional number rendered into a template
literal: `0`, like a missing value, is falsy and yields the default. -/
def jsNumOr (v : Option Nat) (d : String) : String :=
  match v with
  | some n => if n = 0 then d else toString n
  | none => d

/-- JavaScript `v || d` on an optional string: the empty string, like a
missing value, is falsy and yields the default. -/
def jsStrOr (v : Option String) (d : String) : String :=
  match v with
  | some s => if s = "" then d else s
  | none => d

/-- One line of the Sources block, built from a source item exactly as
`handleAsk` renders it. -/
def sourceLine (s : SourceItem) : String :=
  if s.source_type = "manual" then
    "- " ++ s.manual_title ++ ", Page " ++ jsNumOr s.page_number "?" ++ "\n"
  else
    "- Worker Note #"
      ++ (match s.note_id with | some n => toString n | none => "undefined")
      ++ " (" ++ jsStrOr s.created_at "N/A" ++ ")\n"

/-- The answer text shown to the user: the backend answer, followed by a
Sources block when the response carried any sources. -/
def buildAnswerText (answer : String) (sources : List SourceItem) : String :=
  if 0 < sources.length then
    answer ++ "\n\n---\n**Sources:**\n" ++ String.join (sources.map sourceLine)
  else answer

/-- JavaScript `String.prototype.trim`: strip leading and trailing
whitespace characters. -/
def jsTrim (s : String) : String :=
  ⟨((s.data.dropWhile Char.isWhitespace).reverse.dropWhile Char.isWhitespace).reverse⟩

/-- The guard-and-send phase of `handleAsk`: returns the message list as
left by the call and the chat request it issued, if any.  A blank input
or a missing machine selection returns without sending. -/
def handleAskSend (msgs : List Msg) (input : String) (selected : Option Machine) :
    List Msg × Option ChatRequest :=
  if jsTrim input = "" then (msgs, none)
  else
    match selected with
    | none => (msgs, none)
    | some m =>
      (msgs ++ [userMsg input, typingMsg],
       some { query := input, machine_id := m.id })

/-- The filter predicate `(m) => m.type !== "typing"`. -/
def notTyping (m : Msg) : Bool := m.type != some "typing"

/-- How the awaited chat request settled. -/
inductive ChatOutcome where
  | success (answer : String) (sources : List SourceItem) : ChatOutcome
  | failure (status : Nat) : ChatOutcome

/-- The settle phase of `handleAsk`: on success remove the typing
placeholder and append the rendered answer; on failure remove the
placeholder and, unless the status is 401 (which reloads the page),
append the fixed apology message. -/
def handleAskSettle (msgs : List Msg) (o : ChatOutcome) : List Msg :=
  match o with
  | .success answer sources =>
    msgs.filter notTyping ++ [botMsg (buildAnswerText answer sources)]
  | .failure status =>
    let cleared := msgs.filter notTyping
    if status = 401 then cleared else cleared ++ [apologyMsg]

/-! ### Concrete fixtures for witnesses -/

/-- An embedding provider that always fails, for the degraded query path. -/
def embedFail : String → Option (List Score) := fun _ => none

/-- A store holding a single untagged lexical chunk, for concrete runs. -/
def demoStore : Store :=
  { vindex := [], lindex := [⟨1, ["coolant"], none⟩], chunks := [] }

/-- A worker-note chunk record, for concrete provenance runs. -/
def demoRec : ChunkRec :=
  ⟨1, 0, 0, ["coolant"], "Notes", none, none, some 9, some "2024-01-01"⟩

/-- `demoStore` with its chunk record present, for provenance lookups. -/
def demoStoreP : Store :=
  { vindex := [], lindex := [⟨1, ["coolant"], none⟩], chunks := [demoRec] }

/-- A chunk-level embedding provider that always fails. -/
def chunkEmbedFail : List String → Option (List Score) := fun _ => none

/-- A constant chunk-level embedding provider that always succeeds. -/
def chunkEmbedConst : List String → Option (List Score) := fun _ => some [1]

/-- A small manual document for concrete ingestion runs. -/
def demoDoc : DocInput :=
  { doc_id := 3, text := ["a", "b"], title := "VF-2 Manual",
    tag := some "haas-vf2", kind := .manual, created_at := "" }

/-! ### Claim C3: the chunker -/

/-- C3: the Chunker is a pure function of the input text and the
configuration; concatenating the produced chunks minus the configured
overlaps reconstructs the original text losslessly; a text shorter than
one chunk yields exactly one chunk; and a trailing remainder shorter
than the overlap is merged into the previous chunk rather than emitted
as its own chunk. -/
theorem chunker_roundtrip_and_edges (C O : Nat) (toks : List String) :
    joinChunks O (chunkTokens C O toks) = toks
    ∧ (toks.length ≤ C → chunkTokens C O toks = [toks])
    ∧ (C < toks.length → toks.length < C + O → chunkTokens C O toks = [toks]) := by
  refine ⟨joinChunks_chunkTokens C O toks, ?_, ?_⟩
  · intro h
    rw [chunkTokens]
    rw [dif_pos (Or.inl h)]
  · intro _ h2
    rw [chunkTokens]
    rw [dif_pos (Or.inr (Or.inl h2))]

/-- Witness for C3 at concrete inputs: an 8-token text with chunk size 5
and overlap 2 reconstructs; a 3-token text is a single chunk; a 6-token
text whose 1-token remainder is shorter than the overlap is merged. -/
theorem chunker_roundtrip_and_edges_witness :
    joinChunks 2 (chunkTokens 5 2 ["a", "b", "c", "d", "e", "f", "g", "h"])
      = ["a", "b", "c", "d", "e", "f", "g", "h"]
    ∧ chunkTokens 5 2 ["a", "b", "c"] = [["a", "b", "c"]]
    ∧ chunkTokens 5 2 ["a", "b", "c", "d", "e", "f"]
      = [["a", "b", "c", "d", "e", "f"]] :=
  ⟨(chunker_roundtrip_and_edges 5 2 ["a", "b", "c", "d", "e", "f", "g", "h"]).1,
   (chunker_roundtrip_and_edges 5 2 ["a", "b", "c"]).2.1 (by decide),
   (chunker_roundtrip_and_edges 5 2 ["a", "b", "c", "d", "e", "f"]).2.2
     (by decide) (by decide)⟩

/-! ### Claim C9: `handleAsk` sends only with input and a machine -/

/-- C9: `handleAsk` issues a chat request exactly when the input is
non-blank and a machine is selected; when it does not send, the message
list is unchanged; and every request it sends carries the selected
machine's id and the typed query. -/
theorem handleAsk_send_guard (msgs : List Msg) (input : String) (sel : Option Machine) :
    ((handleAskSend msgs input sel).2 = none ↔ jsTrim input = "" ∨ sel = none)
    ∧ ((handleAskSend msgs input sel).2 = none → (handleAskSend msgs input sel).1 = msgs)
    ∧ (∀ m : Machine, sel = some m →
        ∀ req : ChatRequest, (handleAskSend msgs input sel).2 = some req →
          req.machine_id = m.id ∧ req.query = input) := by
  unfold handleAskSend
  by_cases hb : jsTrim input = ""
  · simp [hb]
  · cases sel with
    | none => simp [hb]
    | some m =>
      simp only [if_neg hb]
      refine ⟨by simp [hb], by simp, ?_⟩
      intro m2 hm2 req hreq
      cases hm2
      cases hreq
      exact ⟨rfl, rfl⟩

/-- Witness for C9 at a concrete input: sending "hi" with machine 7
selected issues a request scoped to machine 7 with query "hi", and a
blank input sends nothing and leaves the messages unchanged. -/
theorem handleAsk_send_guard_witness :
    ((⟨"hi", 7⟩ : ChatRequest).machine_id = 7 ∧ (⟨"hi", 7⟩ : ChatRequest).query = "hi")
    ∧ (handleAskSend [] " " (some ⟨7, "UR10e"⟩)).1 = [] := by
  constructor
  · exact (handleAsk_send_guard [] "hi" (some ⟨7, "UR10e"⟩)).2.2 ⟨7, "UR10e"⟩ rfl
      ⟨"hi", 7⟩ (by decide)
  · exact (handleAsk_send_guard [] " " (some ⟨7, "UR10e"⟩)).2.1 (by decide)

/-! ### Claim C10: `handleAsk` settle behaviour -/

theorem notTyping_iff (x : Msg) : notTyping x = true ↔ x.type ≠ some "typing" := by
  simp [notTyping]

theorem settle_members (ms : List Msg) (o : ChatOutcome) :
    ∀ x ∈ handleAskSettle ms o, x.type ≠ some "typing" := by
  intro x hx
  cases o with
  | success a s =>
    simp only [handleAskSettle] at hx
    rcases List.mem_append.mp hx with h | h
    · exact (notTyping_iff x).mp (List.of_mem_filter h)
    · simp only [List.mem_singleton] at h
      subst h
      simp [botMsg]
  | failure st =>
    simp only [handleAskSettle] at hx
    by_cases h401 : st = 401
    · rw [if_pos h401] at hx
      exact (notTyping_iff x).mp (List.of_mem_filter hx)
    · rw [if_neg h401] at hx
      rcases List.mem_append.mp hx with h | h
      · exact (notTyping_iff x).mp (List.of_mem_filter h)
      · simp only [List.mem_singleton] at h
        subst h
        simp [apologyMsg, botMsg]

/-- C10: after a chat request issued by `handleAsk` settles, no typing
placeholder remains; on success the placeholder is replaced by the bot
answer, on a non-401 failure by the fixed apology message, and on a 401
failure by nothing; in every case the messages present before the
request are preserved unchanged, in order, as a prefix. -/
theorem handleAsk_settle_cleanup (msgs : List Msg) (input : String) (sel : Option Machine)
    (during : List Msg) (req : ChatRequest)
    (hsend : handleAskSend msgs input sel = (during, some req))
    (hclean : ∀ x ∈ msgs, x.type ≠ some "typing") :
    (∀ o : ChatOutcome, ∀ x ∈ handleAskSettle during o, x.type ≠ some "typing")
    ∧ (∀ answer sources,
        handleAskSettle during (.success answer sources)
          = msgs ++ [userMsg input, botMsg (buildAnswerText answer sources)])
    ∧ (∀ status, status ≠ 401 →
        handleAskSettle during (.failure status) = msgs ++ [userMsg input, apologyMsg])
    ∧ handleAskSettle during (.failure 401) = msgs ++ [userMsg input] := by
  unfold handleAskSend at hsend
  by_cases hb : jsTrim input = ""
  · rw [if_pos hb] at hsend
    simp at hsend
  · rw [if_neg hb] at hsend
    cases sel with
    | none => simp at hsend
    | some m =>
      simp only [Prod.mk.injEq] at hsend
      obtain ⟨hd, _⟩ := hsend
      subst hd
      have hmsgs : msgs.filter notTyping = msgs :=
        List.filter_eq_self.mpr (fun x hx => (notTyping_iff x).mpr (hclean x hx))
      have hfilter : (msgs ++ [userMsg input, typingMsg]).filter notTyping
          = msgs ++ [userMsg input] := by
        rw [List.filter_append, hmsgs]
        simp only [List.filter, notTyping, userMsg, typingMsg]
        rfl
      refine ⟨settle_members _, ?_, ?_, ?_⟩
      · intro answer sources
        simp [handleAskSettle, hfilter]
      · intro status hst
        simp [handleAskSettle, if_neg hst, hfilter]
      · simp [handleAskSettle, hfilter]

/-- Witness for C10 at a concrete input: after asking "hi" with machine 7
selected, a 401 failure leaves exactly the user message, with the typing
placeholder removed. -/
theorem handleAsk_settle_cleanup_witness :
    handleAskSettle [userMsg "hi", typingMsg] (.failure 401) = [] ++ [userMsg "hi"] :=
  (handleAsk_settle_cleanup [] "hi" (some ⟨7, "UR10e"⟩) [userMsg "hi", typingMsg]
    ⟨"hi", 7⟩ (by decide) (by simp)).2.2.2

/-! ### Claim C7: score normalization -/

theorem dot_cons (a b : Score) (v w : List Score) :
    dot (a :: v) (b :: w) = a * b + dot v w := by
  simp [dot]

theorem dot_self_nonneg (v : List Score) : 0 ≤ dot v v := by
  induction v with
  | nil => simp [dot]
  | cons a v ih =>
    rw [dot_cons]
    exact add_nonneg (mul_self_nonneg a) ih

/-- Cauchy-Schwarz for the list dot product. -/
theorem dot_sq_le (v : List Score) : ∀ w : List Score,
    dot v w ^ 2 ≤ dot v v * dot w w := by
  induction v with
  | nil => intro w; simp [dot]
  | cons a v ih =>
    intro w
    cases w with
    | nil => simp [dot]
    | cons b w =>
      rw [dot_cons, dot_cons, dot_cons]
      have hW := dot_self_nonneg w
      have hd2 := ih w
      rcases eq_or_lt_of_le (dot_self_nonneg v) with hV0 | hVpos
      · have hd : dot v w = 0 := by
          have h0 : dot v w ^ 2 ≤ 0 := by nlinarith [ih w, dot_self_nonneg w]
          have := le_antisymm h0 (sq_nonneg _)
          exact pow_eq_zero_iff (two_ne_zero) |>.mp this
        rw [hd, ← hV0]
        nlinarith [mul_nonneg (mul_self_nonneg a) hW]
      · nlinarith [ih w, hW, hVpos, sq_nonneg (a * dot v w - b * dot v v),
          mul_nonneg (mul_self_nonneg a) (sub_nonneg.mpr (ih w)),
          mul_nonneg (le_of_lt hVpos) (sub_nonneg.mpr (ih w))]

/-- C7: raw lexical scores are min-max normalized into `[0, 1]` per query,
a single-candidate query normalizes to `1`, and cosine similarities of
unit-normalized vectors are mapped by `(score + 1) / 2` into `[0, 1]`, so
both fused-score inputs lie on the same `[0, 1]` scale. -/
theorem score_normalization (res : List (Nat × Score)) :
    (∀ p ∈ minMaxNormalize res, 0 ≤ p.2 ∧ p.2 ≤ 1)
    ∧ (∀ (id : Nat) (s : Score), minMaxNormalize [(id, s)] = [(id, 1)])
    ∧ (∀ v w : List Score, dot v v = 1 → dot w w = 1 →
        cosineSim v w = (dot v w + 1) / 2
        ∧ 0 ≤ cosineSim v w ∧ cosineSim v w ≤ 1) := by
  refine ⟨?_, ?_, ?_⟩
  · intro p hp
    cases res with
    | nil => cases hp
    | cons q ps =>
      simp only [minMaxNormalize] at hp
      have hbounds : ∀ r ∈ q :: ps,
          (ps.map Prod.snd).foldr min q.2 ≤ r.2
          ∧ r.2 ≤ (ps.map Prod.snd).foldr max q.2 := by
        intro r hr
        rcases List.mem_cons.mp hr with h | h
        · subst h
          exact ⟨foldr_min_le_init _ _, le_foldr_max_init _ _⟩
        · exact ⟨foldr_min_le_mem _ _ _ (List.mem_map_of_mem Prod.snd h),
                 le_foldr_max_mem _ _ _ (List.mem_map_of_mem Prod.snd h)⟩
      by_cases hd : (ps.map Prod.snd).foldr max q.2 = (ps.map Prod.snd).foldr min q.2
      · rw [if_pos hd] at hp
        obtain ⟨r, hr, rfl⟩ := List.mem_map.mp hp
        exact ⟨by norm_num, by norm_num⟩
      · rw [if_neg hd] at hp
        obtain ⟨r, hr, rfl⟩ := List.mem_map.mp hp
        have hrb := hbounds r hr
        have hlohi : (ps.map Prod.snd).foldr min q.2 < (ps.map Prod.snd).foldr max q.2 := by
          have hq := hbounds q (List.mem_cons_self q ps)
          rcases lt_or_eq_of_le (hq.1.trans hq.2) with h | h
          · exact h
          · exact absurd h.symm hd
        constructor
        · exact div_nonneg (by linarith [hrb.1]) (by linarith)
        · rw [div_le_one (by linarith)]
          linarith [hrb.2]
  · intro id s
    simp [minMaxNormalize]
  · intro v w hv hw
    refine ⟨rfl, ?_, ?_⟩
    · have hsq := dot_sq_le v w
      rw [hv, hw] at hsq
      have habs := abs_le.mp ((sq_le_one_iff_abs_le_one (dot v w)).mp (by linarith))
      unfold cosineSim
      exact div_nonneg (by linarith [habs.1]) (by norm_num)
    · have hsq := dot_sq_le v w
      rw [hv, hw] at hsq
      have habs := abs_le.mp ((sq_le_one_iff_abs_le_one (dot v w)).mp (by linarith))
      unfold cosineSim
      rw [div_le_one (by norm_num)]
      linarith [habs.2]

/-- Witness for C7 at concrete inputs: a one-candidate result normalizes
to `1`, and the similarity of the unit vector `[1]` with itself lies in
`[0, 1]`. -/
theorem score_normalization_witness :
    minMaxNormalize [(3, (7 : Score))] = [(3, 1)]
    ∧ 0 ≤ cosineSim [1] [1] ∧ cosineSim [1] [1] ≤ 1 := by
  have h := (score_normalization []).2.2 [1] [1] (by norm_num [dot]) (by norm_num [dot])
  exact ⟨(score_normalization []).2.1 3 7, h.2.1, h.2.2⟩

/-! ### Claim C1: the fusion ranker -/

theorem mem_of_mem_rankSort_take {α : Type} (s : α → Score) (k : α → Nat)
    (l : List α) (n : Nat) (x : α) (hx : x ∈ (rankSort s k l).take n) : x ∈ l :=
  (List.perm_insertionSort (rankLE s k) l).mem_iff.mp (List.take_subset n _ hx)

theorem sorted_rankSort_take {α : Type} (s : α → Score) (k : α → Nat)
    (l : List α) (n : Nat) : List.Sorted (rankLE s k) ((rankSort s k l).take n) :=
  List.Pairwise.sublist (List.take_sublist n _)
    (List.sorted_insertionSort (rankLE s k) l)

theorem mem_fusedCandidates (vres lres : List (Nat × Score)) (c : Candidate)
    (hc : c ∈ fusedCandidates vres lres) :
    c.vector_score = lookupScore vres c.chunk_id
    ∧ c.lexical_score = lookupScore lres c.chunk_id
    ∧ c.fused_score = w_v * lookupScore vres c.chunk_id
        + w_l * lookupScore lres c.chunk_id
    ∧ (c.chunk_id ∈ vres.map Prod.fst ∨ c.chunk_id ∈ lres.map Prod.fst) := by
  obtain ⟨id, hid, rfl⟩ := List.mem_map.mp hc
  exact ⟨rfl, rfl, rfl, List.mem_append.mp (List.mem_dedup.mp hid)⟩

theorem fusedCandidates_ids (vres lres : List (Nat × Score)) :
    (fusedCandidates vres lres).map Candidate.chunk_id
      = (vres.map Prod.fst ++ lres.map Prod.fst).dedup := by
  unfold fusedCandidates
  rw [List.map_map]
  exact List.map_id' _

theorem fuseRank_ids_nodup (vres lres : List (Nat × Score)) (k : Nat) :
    ((fuseRank vres lres k).map Candidate.chunk_id).Nodup := by
  have hperm : List.Perm
      ((rankSort Candidate.fused_score Candidate.chunk_id
        (fusedCandidates vres lres)).map Candidate.chunk_id)
      ((fusedCandidates vres lres).map Candidate.chunk_id) :=
    (List.perm_insertionSort _ _).map _
  have hnd : ((fusedCandidates vres lres).map Candidate.chunk_id).Nodup := by
    rw [fusedCandidates_ids]
    exact List.nodup_dedup _
  have hnd2 := hperm.nodup_iff.mpr hnd
  unfold fuseRank
  rw [List.map_take]
  exact hnd2.sublist (List.take_sublist _ _)

theorem lookupScore_eq_zero (res : List (Nat × Score)) (id : Nat)
    (h : id ∉ res.map Prod.fst) : lookupScore res id = 0 := by
  unfold lookupScore
  have hnone : res.find? (fun p => p.1 == id) = none := by
    rw [List.find?_eq_none]
    intro p hp hbeq
    exact h (List.mem_map.mpr ⟨p, hp, beq_iff_eq.mp hbeq⟩)
  rw [hnone]

/-- C1: the Fusion Ranker computes each candidate's fused score as
`w_v * vector_score + w_l * lexical_score` with the fixed weights
`w_v = 0.6` and `w_l = 0.4`; a chunk retrieved by only one index
contributes its normalized score on that side and `0` on the missing
side and is never excluded for appearing in one index only; the result
is sorted by fused score descending with ties broken by chunk id
ascending, then truncated to the top `kfinal` candidates. -/
theorem fusion_ranker (vres lres : List (Nat × Score)) (kfinal : Nat) :
    w_v = 6 / 10 ∧ w_l = 4 / 10
    ∧ (∀ c ∈ fuseRank vres lres kfinal,
        c.vector_score = lookupScore vres c.chunk_id
        ∧ c.lexical_score = lookupScore lres c.chunk_id
        ∧ c.fused_score = w_v * c.vector_score + w_l * c.lexical_score)
    ∧ (∀ id : Nat, id ∈ vres.map Prod.fst ∨ id ∈ lres.map Prod.fst →
        ∃ c ∈ fusedCandidates vres lres, c.chunk_id = id)
    ∧ (∀ id : Nat, id ∉ vres.map Prod.fst → lookupScore vres id = 0)
    ∧ (∀ id : Nat, id ∉ lres.map Prod.fst → lookupScore lres id = 0)
    ∧ List.Sorted (rankLE Candidate.fused_score Candidate.chunk_id)
        (fuseRank vres lres kfinal)
    ∧ ((fuseRank vres lres kfinal).map Candidate.chunk_id).Nodup
    ∧ (fuseRank vres lres kfinal).length ≤ kfinal := by
  refine ⟨rfl, rfl, ?_, ?_, ?_, ?_, ?_, fuseRank_ids_nodup vres lres kfinal, ?_⟩
  · intro c hc
    have hm := mem_fusedCandidates vres lres c
      (mem_of_mem_rankSort_take _ _ _ _ _ hc)
    exact ⟨hm.1, hm.2.1, by rw [hm.2.2.1, hm.1, hm.2.1]⟩
  · intro id h
    exact ⟨_, List.mem_map_of_mem _ (List.mem_dedup.mpr (List.mem_append.mpr h)), rfl⟩
  · intro id h
    exact lookupScore_eq_zero vres id h
  · intro id h
    exact lookupScore_eq_zero lres id h
  · exact sorted_rankSort_take _ _ _ _
  · exact List.length_take_le _ _

/-- Witness for C1 at concrete inputs: with vector results `[(2, 1/2)]`
and lexical results `[(1, 1)]`, chunk `1` (lexical-only) still yields a
fused candidate, and its missing vector side contributes `0`. -/
theorem fusion_ranker_witness :
    (∃ c ∈ fusedCandidates [(2, (1 : Score) / 2)] [(1, (1 : Score))], c.chunk_id = 1)
    ∧ lookupScore [(2, (1 : Score) / 2)] 1 = 0 :=
  ⟨(fusion_ranker [(2, (1 : Score) / 2)] [(1, 1)] 5).2.2.2.1 1 (Or.inr (by decide)),
   (fusion_ranker [(2, (1 : Score) / 2)] [(1, 1)] 5).2.2.2.2.1 1 (by decide)⟩

/-! ### Claim C2: machine scoping -/

theorem minMaxNormalize_ids (res : List (Nat × Score)) (x : Nat)
    (hx : x ∈ (minMaxNormalize res).map Prod.fst) : x ∈ res.map Prod.fst := by
  cases res with
  | nil => simp [minMaxNormalize] at hx
  | cons q ps =>
    simp only [minMaxNormalize] at hx
    split at hx <;> (rw [List.map_map] at hx; exact hx)

theorem vQuery_ids (idx : List VEntry) (qv : List Score) (k : Nat) (f : Option String)
    (x : Nat) (hx : x ∈ (vQuery idx qv k f).map Prod.fst) :
    ∃ e ∈ idx, eligible f e.tag = true ∧ e.chunk_id = x := by
  obtain ⟨p, hp, rfl⟩ := List.mem_map.mp hx
  obtain ⟨e, he, rfl⟩ := List.mem_map.mp (mem_of_mem_rankSort_take _ _ _ _ _ hp)
  obtain ⟨hei, helig⟩ := List.mem_filter.mp he
  exact ⟨e, hei, helig, rfl⟩

theorem lQuery_ids (idx : List LEntry) (toks : List String) (k : Nat) (f : Option String)
    (x : Nat) (hx : x ∈ (lQuery idx toks k f).map Prod.fst) :
    ∃ e ∈ idx, eligible f e.tag = true ∧ e.chunk_id = x := by
  obtain ⟨p, hp, rfl⟩ := List.mem_map.mp hx
  obtain ⟨e, he, rfl⟩ := List.mem_map.mp (mem_of_mem_rankSort_take _ _ _ _ _ hp)
  obtain ⟨hei, helig⟩ := List.mem_filter.mp he
  exact ⟨e, hei, helig, rfl⟩

/-- C2: a query scoped to machine `M` returns only chunks tagged `M` or
untagged (global) — never a chunk tagged with a different machine —
whatever the contents of the indices, provided each index entry carries
the tag of its chunk. -/
theorem query_machine_scoping (embed : String → Option (List Score)) (st : Store)
    (tagOf : Nat → Option String) (q : String) (M : String) (k : Nat)
    (hv : ∀ e ∈ st.vindex, e.tag = tagOf e.chunk_id)
    (hl : ∀ e ∈ st.lindex, e.tag = tagOf e.chunk_id) :
    ∀ c ∈ ragQuery embed st q (some M) k,
      tagOf c.chunk_id = none ∨ tagOf c.chunk_id = some M := by
  intro c hc
  simp only [ragQuery] at hc
  have hlex : c.chunk_id ∈
      (minMaxNormalize (lQuery st.lindex (tokenize q) K_retrieve (some M))).map Prod.fst →
      tagOf c.chunk_id = none ∨ tagOf c.chunk_id = some M := by
    intro hx
    obtain ⟨e, he, helig, heq⟩ := lQuery_ids _ _ _ _ _ (minMaxNormalize_ids _ _ hx)
    rw [← heq, ← hl e he]
    simpa [eligible] using helig
  cases hemb : embed q with
  | some qv =>
    rw [hemb] at hc
    have hid := (mem_fusedCandidates _ _ c (mem_of_mem_rankSort_take _ _ _ _ _ hc)).2.2.2
    rcases hid with hid | hid
    · obtain ⟨e, he, helig, heq⟩ := vQuery_ids _ _ _ _ _ hid
      rw [← heq, ← hv e he]
      simpa [eligible] using helig
    · exact hlex hid
  | none =>
    rw [hemb] at hc
    obtain ⟨p, hp, rfl⟩ := List.mem_map.mp (mem_of_mem_rankSort_take _ _ _ _ _ hc)
    exact hlex (List.mem_map_of_mem Prod.fst hp)

/-- Witness for C2 at a concrete input: querying a store holding only an
untagged lexical chunk, scoped to machine "ur10e", returns that chunk,
whose tag is untagged rather than a different machine's. -/
theorem query_machine_scoping_witness :
    (fun _ : Nat => (none : Option String)) (Candidate.mk 1 0 1 1).chunk_id = none
    ∨ (fun _ : Nat => (none : Option String)) (Candidate.mk 1 0 1 1).chunk_id
        = some "ur10e" :=
  query_machine_scoping embedFail demoStore (fun _ => none) "coolant" "ur10e" 5
    (by decide) (by decide) (Candidate.mk 1 0 1 1) (by
      simp [ragQuery, embedFail, demoStore, lQuery, lexOnlyRank, lexOnlyCandidates,
        minMaxNormalize, rankSort, List.insertionSort, List.orderedInsert, eligible,
        K_retrieve, List.filter])

/-! ### Claim C5: query totality and lexical fallback -/

theorem minMaxNormalize_length (res : List (Nat × Score)) :
    (minMaxNormalize res).length = res.length := by
  cases res with
  | nil => rfl
  | cons q ps =>
    simp only [minMaxNormalize]
    split <;> simp

theorem vQuery_nil_of_no_eligible (idx : List VEntry) (qv : List Score) (k : Nat)
    (f : Option String) (h : idx.filter (fun e => eligible f e.tag) = []) :
    vQuery idx qv k f = [] := by
  unfold vQuery
  rw [h]
  simp [rankSort, List.insertionSort]

theorem lQuery_nil_of_no_eligible (idx : List LEntry) (toks : List String) (k : Nat)
    (f : Option String) (h : idx.filter (fun e => eligible f e.tag) = []) :
    lQuery idx toks k f = [] := by
  unfold lQuery
  rw [h]
  simp [rankSort, List.insertionSort]

/-- C5: Query never fails when there are no results — zero eligible
entries yield an empty ordered list, not an error — and when the query's
own embedding cannot be computed, retrieval falls back to lexical-only
ranking and still returns ranked candidates rather than erroring. -/
theorem query_no_results_and_fallback (embed : String → Option (List Score))
    (st : Store) (q : String) (m : Option String) (k : Nat) :
    (st.vindex.filter (fun e => eligible m e.tag) = [] →
     st.lindex.filter (fun e => eligible m e.tag) = [] →
     ragQuery embed st q m k = [])
    ∧ (embed q = none →
        ragQuery embed st q m k
          = lexOnlyRank (minMaxNormalize (lQuery st.lindex (tokenize q) K_retrieve m)) k
        ∧ (lQuery st.lindex (tokenize q) K_retrieve m ≠ [] → 0 < k →
            ragQuery embed st q m k ≠ [])) := by
  constructor
  · intro hve hle
    have hv := vQuery_nil_of_no_eligible st.vindex
    have hl := lQuery_nil_of_no_eligible st.lindex (tokenize q) K_retrieve m hle
    simp only [ragQuery, hl]
    cases embed q with
    | some qv =>
      dsimp only
      rw [hv qv K_retrieve m hve]
      simp [fuseRank, fusedCandidates, minMaxNormalize, rankSort, List.insertionSort]
    | none =>
      dsimp only
      simp [lexOnlyRank, lexOnlyCandidates, minMaxNormalize, rankSort,
        List.insertionSort]
  · intro he
    constructor
    · simp only [ragQuery, he]
    · intro hne hk
      simp only [ragQuery, he]
      intro hcontra
      have hlen := congrArg List.length hcontra
      simp only [lexOnlyRank, rankSort, List.length_take, List.length_nil] at hlen
      rw [(List.perm_insertionSort _ _).length_eq] at hlen
      simp only [lexOnlyCandidates, List.length_map, minMaxNormalize_length] at hlen
      have := List.length_pos.mpr hne
      omega

/-- Witness for C5 at concrete inputs: an empty store yields the empty
list, and with a failing embedding provider the one-chunk store still
returns a candidate. -/
theorem query_no_results_and_fallback_witness :
    ragQuery embedFail Store.empty "q" none 3 = []
    ∧ ragQuery embedFail demoStore "coolant" (some "ur10e") 5 ≠ [] := by
  constructor
  · exact (query_no_results_and_fallback embedFail Store.empty "q" none 3).1
      (by decide) (by decide)
  · refine ((query_no_results_and_fallback embedFail demoStore "coolant"
      (some "ur10e") 5).2 (by decide)).2 ?_ (by decide)
    simp [lQuery, demoStore, rankSort, List.insertionSort, List.orderedInsert,
      eligible, K_retrieve, List.filter]

/-! ### Claim C4: per-document ingestion atomicity -/

theorem embedAll_chunkEmbedFail_none (l : List (List String)) (h : l ≠ []) :
    embedAll chunkEmbedFail l = none := by
  cases l with
  | nil => exact absurd rfl h
  | cons a as => simp [embedAll, chunkEmbedFail]

/-- C4: if any ingestion step fails, no partial state is committed for
that document — the state comes back exactly as it was — and a failure
while ingesting one document does not affect the ingestion of any other
document. -/
theorem ingest_atomic (embed : List String → Option (List Score)) (C O : Nat)
    (st : Store) (d d2 : DocInput) :
    ((ingest_document embed C O st d).2.isSome = true →
      (ingest_document embed C O st d).1 = st)
    ∧ ((ingest_document embed C O st d).2.isSome = true →
        ingest_document embed C O (ingest_document embed C O st d).1 d2
          = ingest_document embed C O st d2) := by
  unfold ingest_document
  cases h : embedAll embed (chunkTokens C O d.text) with
  | none => simp [h]
  | some vecs => simp [h]

/-- Witness for C4 at a concrete input: a failing embedding provider
leaves the store untouched and does not disturb a later ingestion. -/
theorem ingest_atomic_witness :
    (ingest_document chunkEmbedFail 5 2 demoStore demoDoc).1 = demoStore
    ∧ ingest_document chunkEmbedFail 5 2
        (ingest_document chunkEmbedFail 5 2 demoStore demoDoc).1 demoDoc
      = ingest_document chunkEmbedFail 5 2 demoStore demoDoc := by
  have hfail : (ingest_document chunkEmbedFail 5 2 demoStore demoDoc).2.isSome = true := by
    simp [ingest_document,
      embedAll_chunkEmbedFail_none _ (chunkTokens_ne_nil 5 2 demoDoc.text)]
  exact ⟨(ingest_atomic chunkEmbedFail 5 2 demoStore demoDoc demoDoc).1 hfail,
         (ingest_atomic chunkEmbedFail 5 2 demoStore demoDoc demoDoc).2 hfail⟩

/-! ### Claim C6: idempotent insertion lemmas -/

theorem any_key_iff {α : Type} (key : α → Nat) (idx : List α) (e : α) :
    idx.any (fun x => key x == key e) = true ↔ key e ∈ idx.map key := by
  simp only [List.any_eq_true, List.mem_map, beq_iff_eq]

theorem storedAs_upsertBy_self {α : Type} (key : α → Nat) (idx : List α) (e : α) :
    StoredAs key (upsertBy key idx e) e := by
  unfold upsertBy
  split
  · rename_i hany
    obtain ⟨x0, hx0, hk0⟩ := List.any_eq_true.mp hany
    constructor
    · exact List.mem_map.mpr ⟨x0, hx0, if_pos hk0⟩
    · intro y hy hky
      obtain ⟨x, hx, rfl⟩ := List.mem_map.mp hy
      by_cases hk : key x == key e
      · rw [if_pos hk]
      · rw [if_neg hk] at hky ⊢
        exact absurd (beq_iff_eq.mpr hky) hk
  · rename_i hany
    constructor
    · exact List.mem_append_right _ (List.mem_singleton_self e)
    · intro y hy hky
      rcases List.mem_append.mp hy with h | h
      · have := List.any_eq_true.not.mp hany
        push_neg at this
        exact absurd (beq_iff_eq.mpr hky) (by simpa using this y h)
      · exact List.mem_singleton.mp h

theorem storedAs_upsertBy_preserve {α : Type} (key : α → Nat) (idx : List α)
    (e e2 : α) (h : StoredAs key idx e) (hne : key e2 ≠ key e) :
    StoredAs key (upsertBy key idx e2) e := by
  unfold upsertBy
  split
  · constructor
    · refine List.mem_map.mpr ⟨e, h.1, ?_⟩
      exact if_neg (fun hk => hne (beq_iff_eq.mp hk).symm)
    · intro y hy hky
      obtain ⟨x, hx, rfl⟩ := List.mem_map.mp hy
      by_cases hk : key x == key e2
      · rw [if_pos hk] at hky
        exact absurd hky hne
      · rw [if_neg hk] at hky ⊢
        exact h.2 x hx hky
  · constructor
    · exact List.mem_append_left _ h.1
    · intro y hy hky
      rcases List.mem_append.mp hy with hmem | hmem
      · exact h.2 y hmem hky
      · rw [List.mem_singleton.mp hmem] at hky
        exact absurd hky hne

theorem upsertBy_eq_of_storedAs {α : Type} (key : α → Nat) (idx : List α) (e : α)
    (h : StoredAs key idx e) : upsertBy key idx e = idx := by
  have hany : (idx.any fun x => key x == key e) = true :=
    List.any_eq_true.mpr ⟨e, h.1, beq_self_eq_true (key e)⟩
  unfold upsertBy
  rw [if_pos hany]
  have hpt : ∀ x ∈ idx, (if key x == key e then e else x) = x := by
    intro x hx
    by_cases hk : key x == key e
    · rw [if_pos hk]
      exact (h.2 x hx (beq_iff_eq.mp hk)).symm
    · rw [if_neg hk]
  exact (List.map_congr_left hpt).trans (List.map_id idx)

theorem storedAs_foldl_preserve {α : Type} (key : α → Nat) (es : List α) :
    ∀ (idx : List α) (e : α), StoredAs key idx e → (∀ x ∈ es, key x ≠ key e) →
      StoredAs key (es.foldl (upsertBy key) idx) e := by
  induction es with
  | nil => intro idx e h _; exact h
  | cons a es ih =>
    intro idx e h hk
    exact ih _ e (storedAs_upsertBy_preserve key idx e a h (hk a (List.mem_cons_self a es)))
      (fun x hx => hk x (List.mem_cons_of_mem a hx))

theorem storedAs_foldl_self {α : Type} (key : α → Nat) (es : List α)
    (hnd : (es.map key).Nodup) :
    ∀ (idx : List α) (e : α), e ∈ es → StoredAs key (es.foldl (upsertBy key) idx) e := by
  induction es with
  | nil => intro idx e h; cases h
  | cons a es ih =>
    intro idx e he
    rw [List.map_cons, List.nodup_cons] at hnd
    rcases List.mem_cons.mp he with rfl | he
    · exact storedAs_foldl_preserve key es _ e (storedAs_upsertBy_self key idx e)
        (fun x hx hkx => hnd.1 (hkx ▸ List.mem_map_of_mem key hx))
    · exact ih hnd.2 _ e he

theorem foldl_upsertBy_fixed {α : Type} (key : α → Nat) (es : List α) :
    ∀ J : List α, (∀ x ∈ es, upsertBy key J x = J) → es.foldl (upsertBy key) J = J := by
  induction es with
  | nil => intro J _; rfl
  | cons a es ih =>
    intro J h
    have ha := h a (List.mem_cons_self a es)
    simp only [List.foldl_cons, ha]
    exact ih J (fun x hx => h x (List.mem_cons_of_mem a hx))

theorem foldl_upsertBy_idem {α : Type} (key : α → Nat) (es idx : List α)
    (hnd : (es.map key).Nodup) :
    es.foldl (upsertBy key) (es.foldl (upsertBy key) idx) = es.foldl (upsertBy key) idx :=
  foldl_upsertBy_fixed key es _ (fun x hx =>
    upsertBy_eq_of_storedAs key _ x (storedAs_foldl_self key es hnd idx x hx))

theorem upsertBy_map_key_of_mem {α : Type} (key : α → Nat) (idx : List α) (e : α)
    (hmem : key e ∈ idx.map key) : (upsertBy key idx e).map key = idx.map key := by
  unfold upsertBy
  rw [if_pos ((any_key_iff key idx e).mpr hmem), List.map_map]
  refine List.map_congr_left ?_
  intro x _
  by_cases hk : key x == key e
  · simp only [Function.comp_apply, if_pos hk]
    exact (beq_iff_eq.mp hk).symm
  · simp only [Function.comp_apply, if_neg hk]

theorem upsertBy_count_one {α : Type} (key : α → Nat) (idx : List α) (e : α)
    (hnd : (idx.map key).Nodup) :
    ((upsertBy key idx e).map key).count (key e) = 1 := by
  by_cases hmem : key e ∈ idx.map key
  · rw [upsertBy_map_key_of_mem key idx e hmem]
    exact List.count_eq_one_of_mem hnd hmem
  · unfold upsertBy
    rw [if_neg ((any_key_iff key idx e).not.mpr hmem), List.map_append,
      List.count_append]
    rw [List.count_eq_zero_of_not_mem hmem]
    simp

theorem upsertBy_length_of_mem {α : Type} (key : α → Nat) (idx : List α) (e : α)
    (hmem : key e ∈ idx.map key) : (upsertBy key idx e).length = idx.length := by
  have := congrArg List.length (upsertBy_map_key_of_mem key idx e hmem)
  simpa using this

theorem vInsert_eq : vInsert = upsertBy VEntry.chunk_id := rfl

theorem lInsert_eq : lInsert = upsertBy LEntry.chunk_id := rfl

theorem cInsert_eq : cInsert = upsertBy ChunkRec.chunk_id := rfl

theorem embedAll_length (embed : List String → Option (List Score)) :
    ∀ (l : List (List String)) (vs : List (List Score)),
      embedAll embed l = some vs → vs.length = l.length := by
  intro l
  induction l with
  | nil =>
    intro vs h
    simp only [embedAll, Option.some.injEq] at h
    subst h
    rfl
  | cons c cs ih =>
    intro vs h
    simp only [embedAll] at h
    cases hc : embed c with
    | none => rw [hc] at h; cases h
    | some v =>
      rw [hc] at h
      cases hcs : embedAll embed cs with
      | none => rw [hcs] at h; cases h
      | some ws =>
        rw [hcs] at h
        simp only [Option.some.injEq] at h
        subst h
        simp [ih ws hcs]

theorem docRecs_ids_nodup (d : DocInput) (pieces : List (List String)) :
    ((pieces.enum.map (fun pi => mkChunkRec d pi.1 pi.2)).map ChunkRec.chunk_id).Nodup := by
  rw [List.map_map]
  have heq : (ChunkRec.chunk_id ∘ fun pi : Nat × List String => mkChunkRec d pi.1 pi.2)
      = ((Nat.pair d.doc_id) ∘ Prod.fst) := rfl
  rw [heq, ← List.map_map, List.enum_map_fst]
  exact (List.nodup_range _).map (fun a b h => (Nat.pair_eq_pair.mp h).2)

theorem ingest_document_idem (embed : List String → Option (List Score)) (C O : Nat)
    (st : Store) (d : DocInput)
    (h : (ingest_document embed C O st d).2 = none) :
    ingest_document embed C O (ingest_document embed C O st d).1 d
      = ((ingest_document embed C O st d).1, none) := by
  unfold ingest_document at h ⊢
  dsimp only at h ⊢
  cases hemb : embedAll embed (chunkTokens C O d.text) with
  | none =>
    rw [hemb] at h
    cases h
  | some vecs =>
    dsimp only
    have hrecs := docRecs_ids_nodup d (chunkTokens C O d.text)
    have hlen : ((chunkTokens C O d.text).enum.map
        (fun pi => mkChunkRec d pi.1 pi.2)).length ≤ vecs.length := by
      rw [embedAll_length embed _ vecs hemb]
      simp
    have hvnd : ((((chunkTokens C O d.text).enum.map (fun pi => mkChunkRec d pi.1 pi.2)).zip
          vecs).map (fun rv => VEntry.mk rv.1.chunk_id rv.2 d.tag)).map VEntry.chunk_id
        |>.Nodup := by
      rw [List.map_map]
      have heq : (VEntry.chunk_id ∘ fun rv : ChunkRec × List Score =>
          VEntry.mk rv.1.chunk_id rv.2 d.tag) = (ChunkRec.chunk_id ∘ Prod.fst) := rfl
      rw [heq, ← List.map_map, List.map_fst_zip _ _ hlen]
      exact hrecs
    have hlnd : (((chunkTokens C O d.text).enum.map (fun pi => mkChunkRec d pi.1 pi.2)).map
          (fun r => LEntry.mk r.chunk_id r.text d.tag)).map LEntry.chunk_id |>.Nodup := by
      rw [List.map_map]
      have heq : (LEntry.chunk_id ∘ fun r : ChunkRec =>
          LEntry.mk r.chunk_id r.text d.tag) = ChunkRec.chunk_id := rfl
      rw [heq]
      exact hrecs
    rw [vInsert_eq, lInsert_eq, cInsert_eq]
    rw [foldl_upsertBy_idem _ _ _ hvnd, foldl_upsertBy_idem _ _ _ hlnd,
      foldl_upsertBy_idem _ _ _ hrecs]

/-- C6: inserting into an index is idempotent per chunk id — a second
insert with the same chunk id replaces the existing entry rather than
duplicating it, in both the vector and lexical indices — and re-ingesting
a whole document with the same id leaves the state exactly as after the
first ingestion, with one entry per chunk. -/
theorem insert_idempotent (idx : List VEntry) (lidx : List LEntry)
    (e : VEntry) (le : LEntry)
    (hv : (idx.map VEntry.chunk_id).Nodup)
    (hl : (lidx.map LEntry.chunk_id).Nodup)
    (embed : List String → Option (List Score)) (C O : Nat) (st : Store) (d : DocInput) :
    vInsert (vInsert idx e) e = vInsert idx e
    ∧ ((vInsert idx e).map VEntry.chunk_id).count e.chunk_id = 1
    ∧ (e.chunk_id ∈ idx.map VEntry.chunk_id → (vInsert idx e).length = idx.length)
    ∧ lInsert (lInsert lidx le) le = lInsert lidx le
    ∧ ((lInsert lidx le).map LEntry.chunk_id).count le.chunk_id = 1
    ∧ (le.chunk_id ∈ lidx.map LEntry.chunk_id → (lInsert lidx le).length = lidx.length)
    ∧ ((ingest_document embed C O st d).2 = none →
        ingest_document embed C O (ingest_document embed C O st d).1 d
          = ((ingest_document embed C O st d).1, none)) := by
  rw [vInsert_eq, lInsert_eq]
  exact ⟨upsertBy_eq_of_storedAs _ _ _ (storedAs_upsertBy_self _ idx e),
    upsertBy_count_one _ idx e hv,
    upsertBy_length_of_mem _ idx e,
    upsertBy_eq_of_storedAs _ _ _ (storedAs_upsertBy_self _ lidx le),
    upsertBy_count_one _ lidx le hl,
    upsertBy_length_of_mem _ lidx le,
    ingest_document_idem embed C O st d⟩

/-- Witness for C6 at concrete inputs: inserting the same vector entry
twice into a one-entry index keeps a single entry for its chunk id, and
re-ingesting a small document leaves the store unchanged. -/
theorem insert_idempotent_witness :
    vInsert (vInsert [VEntry.mk 1 [1] none] (VEntry.mk 1 [2] none)) (VEntry.mk 1 [2] none)
      = vInsert [VEntry.mk 1 [1] none] (VEntry.mk 1 [2] none)
    ∧ ((vInsert [VEntry.mk 1 [1] none] (VEntry.mk 1 [2] none)).map
        VEntry.chunk_id).count 1 = 1
    ∧ ingest_document chunkEmbedConst 5 2
        (ingest_document chunkEmbedConst 5 2 Store.empty demoDoc).1 demoDoc
      = ((ingest_document chunkEmbedConst 5 2 Store.empty demoDoc).1, none) := by
  have h := insert_idempotent [VEntry.mk 1 [1] none] [] (VEntry.mk 1 [2] none)
    (LEntry.mk 1 [] none) (by decide) (by decide) chunkEmbedConst 5 2 Store.empty demoDoc
  refine ⟨h.1, h.2.1, h.2.2.2.2.2.2 ?_⟩
  have hone : chunkTokens 5 2 demoDoc.text = [demoDoc.text] := by
    rw [chunkTokens]
    rw [dif_pos (Or.inl (by decide))]
  simp [ingest_document, hone, embedAll, chunkEmbedConst]

/-! ### Claim C8: provenance carried by candidates and used by the UI -/

theorem provOf_eq_of_mem (chunks : List ChunkRec)
    (hnd : (chunks.map ChunkRec.chunk_id).Nodup)
    (ch : ChunkRec) (hch : ch ∈ chunks) :
    provOf chunks ch.chunk_id = chunkProv ch := by
  unfold provOf
  cases hf : chunks.find? (fun c => c.chunk_id == ch.chunk_id) with
  | none =>
    exfalso
    have := List.find?_eq_none.mp hf ch hch
    simp at this
  | some c2 =>
    have hmem := List.mem_of_find?_eq_some hf
    have hkey : c2.chunk_id = ch.chunk_id := by
      have := List.find?_some hf
      simpa using this
    have hco : c2 = ch := List.inj_on_of_nodup_map hnd hmem hch hkey
    rw [hco]

/-- C8: every returned candidate carries its source chunk's provenance —
manual title plus page number for manual chunks, note id plus creation
timestamp for note chunks — and the chat frontend builds its Sources
lines purely from the `source_type`, `manual_title`, `page_number`,
`note_id` and `created_at` fields of each returned source. -/
theorem candidate_provenance (embed : String → Option (List Score)) (st : Store)
    (q : String) (m : Option String) (k : Nat)
    (hnd : (st.chunks.map ChunkRec.chunk_id).Nodup) :
    (∀ r ∈ ragQueryProv embed st q m k, ∀ ch ∈ st.chunks,
        ch.chunk_id = r.cand.chunk_id → r.prov = chunkProv ch)
    ∧ (∀ (d : DocInput) (i : Nat) (t : List String),
        (d.kind = .manual →
          chunkProv (mkChunkRec d i t) = ⟨"manual", d.title, some (i + 1), none, none⟩)
        ∧ (d.kind = .note →
          chunkProv (mkChunkRec d i t)
            = ⟨"note", d.title, none, some d.doc_id, some d.created_at⟩))
    ∧ (∀ s : SourceItem, s.source_type = "manual" →
        sourceLine s = "- " ++ s.manual_title ++ ", Page "
          ++ jsNumOr s.page_number "?" ++ "\n")
    ∧ (∀ s : SourceItem, s.source_type ≠ "manual" →
        sourceLine s = "- Worker Note #"
          ++ (match s.note_id with | some n => toString n | none => "undefined")
          ++ " (" ++ jsStrOr s.created_at "N/A" ++ ")\n")
    ∧ (∀ (answer : String) (sources : List SourceItem), sources ≠ [] →
        buildAnswerText answer sources
          = answer ++ "\n\n---\n**Sources:**\n" ++ String.join (sources.map sourceLine)) := by
  refine ⟨?_, ?_, ?_, ?_, ?_⟩
  · intro r hr ch hch hkey
    obtain ⟨c, _, rfl⟩ := List.mem_map.mp hr
    show provOf st.chunks c.chunk_id = chunkProv ch
    rw [← hkey]
    exact provOf_eq_of_mem st.chunks hnd ch hch
  · intro d i t
    constructor
    · intro hk
      simp [chunkProv, mkChunkRec, hk]
    · intro hk
      simp [chunkProv, mkChunkRec, hk]
  · intro s hs
    simp [sourceLine, hs]
  · intro s hs
    simp [sourceLine, hs]
  · intro answer sources hs
    simp [buildAnswerText, List.length_pos.mpr hs]

/-- Witness for C8 at concrete inputs: the candidate retrieved from a
one-note store carries that note's provenance (note id 9 plus its
timestamp), and a manual chunk record's provenance is its title plus
page number. -/
theorem candidate_provenance_witness :
    (Retrieved.mk (Candidate.mk 1 0 1 1) (chunkProv demoRec)).prov = chunkProv demoRec
    ∧ chunkProv (mkChunkRec demoDoc 0 ["a"])
        = ⟨"manual", demoDoc.title, some 1, none, none⟩ := by
  constructor
  · refine (candidate_provenance embedFail demoStoreP "coolant" (some "ur10e") 5
      (by decide)).1 (Retrieved.mk (Candidate.mk 1 0 1 1) (chunkProv demoRec)) ?_
      demoRec (by decide) (by decide)
    simp [ragQueryProv, ragQuery, embedFail, demoStoreP, lQuery, lexOnlyRank,
      lexOnlyCandidates, minMaxNormalize, rankSort, List.insertionSort,
      List.orderedInsert, eligible, K_retrieve, List.filter, provOf, demoRec,
      List.find?]
  · exact ((candidate_provenance embedFail demoStoreP "q" none 5 (by decide)).2.1
      demoDoc 0 ["a"]).1 rfl

end RAG
